import Mathlib

/-!
Verification of the list-fetch-and-enrich pipeline and the derived-view
(filter / sort / gallery-filter / detail-navigation) logic of the Pokédex
single-page application (`src/App.tsx`).

The TypeScript code is shallowly embedded:
* JavaScript strings are Lean `String`s; the JS string primitives used by the
  code (`trim`, `toLowerCase`, `includes`, `String(n)` on a non-negative
  integer, `split`) are modelled by executable functions over `List Char`.
  Case mapping is modelled on the ASCII range, which is exactly what
  `Char.toLower` implements and agrees with `String.prototype.toLowerCase`
  on the data this application handles.
* JS numbers occurring in the data model are integers here: identifiers are
  `Nat` (they are parsed from decimal URL segments), the enrichable
  attributes are `Int` (their sentinel value is `-1`).
* The remote transport is an oracle `Fetch : Nat → Option PokemonDetail`;
  `none` models a rejected promise (network failure / non-2xx).
* The bounded worker pool of `getPokemonPage` is modelled as a small-step
  transition relation over an explicit pool state; the single-threaded
  cooperative event loop of JS corresponds to the atomicity of each step.
* `Array.prototype.sort` (stable since ES2019) is modelled by a stable
  insertion sort over the JS comparator; `localeCompare` is an arbitrary
  parameter `lc : String → String → Int` of the sorting functions.
-/

namespace Pokedex

/-! ## JS string primitives -/

/-- Does `hay` start with `sub`?  Helper for `listIncludes`. -/
def beginsWith : List Char → List Char → Bool
  | [], _ => true
  | _ :: _, [] => false
  | a :: s, b :: t => a == b && beginsWith s t

/-- Models `hay.includes(sub)` for JS strings, at the character-list level:
contiguous-substring search. -/
def listIncludes (sub : List Char) : List Char → Bool
  | [] => sub.isEmpty
  | c :: t => beginsWith sub (c :: t) || listIncludes sub t

/-- Models `hay.includes(sub)` on `String`s. -/
def jsIncludes (hay sub : String) : Bool :=
  listIncludes sub.data hay.data

/-- Models `s.toLowerCase()`.  `Char.toLower` lowers exactly the ASCII range,
matching the JS behaviour on the ASCII strings this application handles. -/
def jsToLower (s : String) : String :=
  ⟨s.data.map Char.toLower⟩

/-- Models `s.trim()`: remove leading and trailing whitespace. -/
def jsTrim (s : String) : String :=
  ⟨((s.data.dropWhile Char.isWhitespace).reverse.dropWhile Char.isWhitespace).reverse⟩

/-- The decimal digit character for `d < 10`. -/
def digitChar (d : Nat) : Char := Char.ofNat (48 + d)

/-- Decimal digits of `n`, most significant first, with explicit recursion
fuel so the definition is structural (any `fuel > log10 n` gives the same
answer; `decimalChars` passes `n + 1`). -/
def decimalCharsAux : Nat → Nat → List Char
  | 0, _ => []
  | fuel + 1, n =>
    if n < 10 then [digitChar n]
    else decimalCharsAux fuel (n / 10) ++ [digitChar (n % 10)]

/-- Decimal digit string of a natural number, most significant digit first.
Models JS `String(n)` (and template interpolation of `n`) for a non-negative
integer `n`. -/
def decimalChars (n : Nat) : List Char := decimalCharsAux (n + 1) n

/-- Models JS `String(n)` for a non-negative integer `n`. -/
def decimalStr (n : Nat) : String := ⟨decimalChars n⟩

/-! ## Data model (`src/App.tsx`, Types section) -/

/-- A raw page-listing reference: `interface NamedAPIResource` in the source. -/
structure NamedAPIResource where
  name : String
  url : String
deriving Repr, DecidableEq

/-- The sprite record of a detail response (only the field the code uses). -/
structure Sprites where
  front_default : Option String
deriving Repr, DecidableEq

/-- One element of a detail response's `types` array. -/
structure TypeSlot where
  slot : Nat
  type : NamedAPIResource
deriving Repr, DecidableEq

/-- The fields of `interface PokemonDetail` that the embedded operations
read.  The enrichable numeric attributes are `Int`, like the JS numbers. -/
structure PokemonDetail where
  id : Nat
  name : String
  sprites : Sprites
  types : List TypeSlot
  height : Int
  weight : Int
  base_experience : Int
deriving Repr, DecidableEq

/-- `interface PokemonListItem`: an Entry Summary.  `-1` in
`base_experience` / `height` / `weight` is the not-yet-enriched sentinel. -/
structure PokemonListItem where
  id : Nat
  name : String
  url : String
  image : String
  types : List String
  base_experience : Int
  height : Int
  weight : Int
deriving Repr, DecidableEq

/-- The transport oracle for `getPokemonDetail`: `none` models a rejected
promise (network failure or non-2xx response). -/
def Fetch : Type := Nat → Option PokemonDetail

/-! ## Derived view engine (`sortItems`, `filterItems`, gallery filter) -/

inductive SortKey where
  | name | id | base_experience
deriving Repr, DecidableEq

inductive SortDir where
  | asc | desc
deriving Repr, DecidableEq

/-- The comparator built inside `sortItems`: `localeCompare` (the parameter
`lc`, whose exact collation is environment-defined) times `mul` for the
string key, numeric subtraction times `mul` for the numeric keys. -/
def itemCompare (lc : String → String → Int) (key : SortKey) (dir : SortDir)
    (a b : PokemonListItem) : Int :=
  let mul : Int := match dir with | .asc => 1 | .desc => -1
  match key with
  | .name => lc a.name b.name * mul
  | .id => ((a.id : Int) - (b.id : Int)) * mul
  | .base_experience => (a.base_experience - b.base_experience) * mul

/-- Insert `x` into `l` in front of the first element `y` with
`cmp x y ≤ 0`.  Helper for `stableSort`. -/
def insertSorted {α : Type} (cmp : α → α → Int) (x : α) : List α → List α
  | [] => [x]
  | y :: ys => if cmp x y ≤ 0 then x :: y :: ys else y :: insertSorted cmp x ys

/-- Models `Array.prototype.sort` with comparator `cmp`.  ECMAScript requires
the sort to be stable (ES2019); for a consistent comparator any stable sort
produces the same output, so the model is this stable insertion sort. -/
def stableSort {α : Type} (cmp : α → α → Int) : List α → List α
  | [] => []
  | x :: xs => insertSorted cmp x (stableSort cmp xs)

/-- `function sortItems(items, key, dir)` of `src/App.tsx`:
`[...items].sort((a, b) => ...)`. -/
def sortItems (lc : String → String → Int) (items : List PokemonListItem)
    (key : SortKey) (dir : SortDir) : List PokemonListItem :=
  stableSort (itemCompare lc key dir) items

/-- `function filterItems(items, q)` of `src/App.tsx`:
`const s = q.trim().toLowerCase(); if (!s) return items;`
`return items.filter((p) => p.name.includes(s) || String(p.id) === s)`. -/
def filterItems (items : List PokemonListItem) (q : String) : List PokemonListItem :=
  let s := jsToLower (jsTrim q)
  if s = "" then items
  else items.filter (fun p => jsIncludes p.name s || decimalStr p.id == s)

/-- The gallery's type-intersection filter (the `useMemo` body in
`GalleryView`): `if (selected.length === 0) return items;`
`return items.filter((p) => selected.every((t) => p.types.includes(t)))`. -/
def galleryTypeFilter (items : List PokemonListItem) (selected : List String) :
    List PokemonListItem :=
  if selected.length = 0 then items
  else items.filter (fun p => selected.all (fun t => p.types.contains t))

/-! ## Detail navigation (`DetailView`) -/

/-- Models `Array.prototype.indexOf`: index of the first occurrence by
linear search, `-1` when absent. -/
def jsIndexOf (l : List Nat) (x : Nat) : Int :=
  match l with
  | [] => -1
  | a :: t =>
    if a = x then 0
    else
      let r := jsIndexOf t x
      if r < 0 then -1 else r + 1

/-- `const order = items.map((i) => i.id)` in `DetailView`. -/
def detailOrder (items : List PokemonListItem) : List Nat :=
  items.map (fun i => i.id)

/-- The prev / next computation of `DetailView`:
`const index = order.indexOf(pid);`
`const prevId = index > 0 ? order[index - 1] : null;`
`const nextId = index >= 0 && index < order.length - 1 ? order[index + 1] : null;`
(`null` and out-of-range `undefined` are both `none`). -/
def prevNextIds (order : List Nat) (pid : Nat) : Option Nat × Option Nat :=
  let index := jsIndexOf order pid
  let prevId : Option Nat := if 0 < index then order[index.toNat - 1]? else none
  let nextId : Option Nat :=
    if 0 ≤ index ∧ index < (order.length : Int) - 1 then order[index.toNat + 1]? else none
  (prevId, nextId)

/-- Prev / next for a given current identifier, from the Shared Result List. -/
def detailNav (items : List PokemonListItem) (pid : Nat) : Option Nat × Option Nat :=
  prevNextIds (detailOrder items) pid

/-! ## getPokemonPage: light-list construction, enrichment, fallback -/

/-- Models `s.split(sep)` for a one-character separator: maximal runs
between separator occurrences, keeping empty runs (as JS does). -/
def splitOnChar (sep : Char) : List Char → List (List Char)
  | [] => [[]]
  | c :: t =>
    match splitOnChar sep t with
    | [] => [[]]
    | grp :: rest => if c = sep then [] :: grp :: rest else (c :: grp) :: rest

/-- Models JS `Number(s)` on a non-empty all-digit string; `none` stands for
`NaN` (empty input is excluded before this is called, because
`filter(Boolean)` removed it). -/
def parseDecimal (l : List Char) : Option Nat :=
  if l.isEmpty then none
  else l.foldl
    (fun acc c =>
      match acc with
      | none => none
      | some n => if 48 ≤ c.toNat ∧ c.toNat ≤ 57 then some (n * 10 + (c.toNat - 48)) else none)
    (some 0)

/-- Models `Number(it.url.split("/").filter(Boolean).pop())` on the URLs the
catalog serves, whose trailing non-empty segment is a decimal numeral (for
other strings JS `Number` yields `NaN`, which is outside this model's
domain; the `getD` defaults are never reached on the modelled inputs). -/
def jsParseTrailingId (url : String) : Nat :=
  (parseDecimal
    (((splitOnChar '/' url.data).filter (fun seg => !seg.isEmpty)).getLast?.getD [])).getD 0

/-- The sprite URL template
`https://raw.githubusercontent.com/PokeAPI/sprites/master/sprites/pokemon/$\x7bid\x7d.png`. -/
def spriteUrl (id : Nat) : String :=
  "https://raw.githubusercontent.com/PokeAPI/sprites/master/sprites/pokemon/"
    ++ decimalStr id ++ ".png"

/-- The record built for one page result inside `getPokemonPage`'s `map`. -/
def lightOf (r : NamedAPIResource) : PokemonListItem :=
  let id := jsParseTrailingId r.url
  { id := id
    name := r.name
    url := r.url
    image := spriteUrl id
    types := []
    base_experience := -1
    height := -1
    weight := -1 }

/-- The comparator `(a, b) => a.id - b.id` used to sort the light list. -/
def idCompare (a b : PokemonListItem) : Int := (a.id : Int) - (b.id : Int)

/-- The light list built from a page response:
`list.map((it) => ...).sort((a, b) => a.id - b.id)`. -/
def buildLight (results : List NamedAPIResource) : List PokemonListItem :=
  stableSort idCompare (results.map lightOf)

/-- The per-entry effect of one worker iteration of the enrichment loop
(`const next = async () => ...` in `getPokemonPage`): on a successful
detail fetch the entry's image, types and numeric attributes are
overwritten (`d.sprites.front_default || light[idx].image` falls back on
`null` and on the empty string, both falsy); on a failed fetch the entry is
left unchanged (`catch` ignores the error). -/
def applyDetail (p : PokemonListItem) (d : PokemonDetail) : PokemonListItem :=
  { p with
    image := match d.sprites.front_default with
      | some s => if s = "" then p.image else s
      | none => p.image
    types := d.types.map (fun t => t.type.name)
    base_experience := d.base_experience
    height := d.height
    weight := d.weight }

/-- One entry's complete enrichment outcome under transport oracle `f`. -/
def enrichStep (f : Fetch) (p : PokemonListItem) : PokemonListItem :=
  match f p.id with
  | some d => applyDetail p d
  | none => p

/-- The literal 3-item static fallback list returned when the page fetch
itself throws (the `catch` branch of `getPokemonPage`). -/
def mockList : List PokemonListItem :=
  [ { id := 1
      name := "bulbasaur"
      url := ""
      image := "https://raw.githubusercontent.com/PokeAPI/sprites/master/sprites/pokemon/1.png"
      types := ["grass", "poison"]
      base_experience := 64
      height := 7
      weight := 69 }
  , { id := 4
      name := "charmander"
      url := ""
      image := "https://raw.githubusercontent.com/PokeAPI/sprites/master/sprites/pokemon/4.png"
      types := ["fire"]
      base_experience := 62
      height := 6
      weight := 85 }
  , { id := 7
      name := "squirtle"
      url := ""
      image := "https://raw.githubusercontent.com/PokeAPI/sprites/master/sprites/pokemon/7.png"
      types := ["water"]
      base_experience := 63
      height := 5
      weight := 90 } ]

/-- `getPokemonPage`, end to end: `none` for the page argument models the
initial `api.get("/pokemon", ...)` throwing, which hits the `catch` branch
and returns the static fallback.  On success the light list is built and
then enriched; the enrichment result equals the pointwise `enrichStep` map,
which `pool_final_characterization` below proves is the outcome of every
complete run of the bounded worker pool. -/
def getPokemonPage (page : Option (List NamedAPIResource)) (f : Fetch) :
    List PokemonListItem :=
  match page with
  | none => mockList
  | some results => (buildLight results).map (enrichStep f)

/-! ## The bounded worker pool as a small-step system

`getPokemonPage` runs `Math.min(4, light.length)` copies of the async
function `next`, all sharing the cursor `i`.  On the single-threaded JS
event loop each worker atomically claims index `i++` (if any), awaits the
detail fetch for it, applies the result, and loops; a worker whose claim
check fails returns.  The states of one worker are therefore: ready to
claim (`idle`), awaiting the response for a claimed index (`fetching idx`),
and returned (`done`).  A scheduler step is either a claim, a worker
return, or the arrival of a response. -/

inductive WStatus where
  | idle
  | fetching (idx : Nat)
  | done
deriving Repr, DecidableEq

structure PoolState where
  /-- The shared cursor `i`. -/
  cursor : Nat
  /-- Number of detail requests issued so far. -/
  reqs : Nat
  /-- One status per spawned worker. -/
  workers : List WStatus
  /-- The shared `light` array, mutated in place. -/
  arr : List PokemonListItem
deriving Repr, DecidableEq

/-- The state after `Array.from(\x7b length: Math.min(concurrency, light.length) \x7d,
() => next())` has spawned the workers and before any of them runs. -/
def initPool (light : List PokemonListItem) : PoolState :=
  { cursor := 0
    reqs := 0
    workers := List.replicate (min 4 light.length) WStatus.idle
    arr := light }

/-- Number of detail requests currently in flight. -/
def inFlight (s : PoolState) : Nat :=
  s.workers.countP (fun w => match w with | .fetching _ => true | _ => false)

/-- All workers have returned: `Promise.all` has resolved. -/
def IsFinal (s : PoolState) : Prop :=
  ∀ w ∈ s.workers, w = WStatus.done

instance (s : PoolState) : Decidable (IsFinal s) := by
  unfold IsFinal; infer_instance

/-- One scheduler step of the enrichment phase.  `claim` is
`if (i >= light.length) return; const idx = i++` followed by issuing the
request (atomic on the event loop); `retire` is the worker returning when
the cursor is exhausted; `complete` is the response for index `idx`
arriving and the worker applying it before looping.  The response is
`f p.id` where `p` is the entry at the claimed index, which no other worker
can touch (only the claiming worker ever writes index `idx`). -/
inductive PoolStep (f : Fetch) : PoolState → PoolState → Prop
  | claim (s : PoolState) (w : Nat)
      (hw : s.workers[w]? = some WStatus.idle) (hc : s.cursor < s.arr.length) :
      PoolStep f s
        { cursor := s.cursor + 1
          reqs := s.reqs + 1
          workers := s.workers.set w (WStatus.fetching s.cursor)
          arr := s.arr }
  | retire (s : PoolState) (w : Nat)
      (hw : s.workers[w]? = some WStatus.idle) (hc : s.arr.length ≤ s.cursor) :
      PoolStep f s { s with workers := s.workers.set w WStatus.done }
  | complete (s : PoolState) (w idx : Nat) (p : PokemonListItem)
      (hw : s.workers[w]? = some (WStatus.fetching idx)) (hp : s.arr[idx]? = some p) :
      PoolStep f s
        { s with
          workers := s.workers.set w WStatus.idle
          arr := s.arr.set idx (enrichStep f p) }

/-- All pool states a run of the enrichment phase can pass through. -/
def PoolReachable (f : Fetch) (light : List PokemonListItem) (s : PoolState) : Prop :=
  Relation.ReflTransGen (PoolStep f) (initPool light) s


/-! ## Auxiliary definitions used by the statements -/

/-- Two items agree on the value of sort key `k`.  Used to state stability:
the claim speaks about items "whose sort-key values are equal". -/
def sameKeyB (k : SortKey) (a b : PokemonListItem) : Bool :=
  match k with
  | .name => a.name == b.name
  | .id => a.id == b.id
  | .base_experience => a.base_experience == b.base_experience

/-- A concrete collation for witnesses: code-point comparison.  Any real
`localeCompare` satisfies the property `lc s s = 0` assumed of `lc`. -/
def codePointCompare (a b : String) : Int :=
  if a = b then 0 else if a < b then -1 else 1

/-- A mutable-array store: JS array references are indices into it.  This
models the aliasing structure relevant to `sortItems`: `[...items]`
allocates a fresh array and `.sort()` mutates only that fresh array, so the
caller's array is untouched. -/
structure ArrayHeap where
  arrays : List (List PokemonListItem)
deriving Repr, DecidableEq

/-- Dereference an array reference. -/
def readArr (h : ArrayHeap) (r : Nat) : List PokemonListItem :=
  (h.arrays[r]?).getD []

/-- Overwrite the contents of the array behind reference `r` in place. -/
def writeArr (h : ArrayHeap) (r : Nat) (a : List PokemonListItem) : ArrayHeap :=
  ⟨h.arrays.set r a⟩

/-- Allocate a fresh array holding `a`; returns the new heap and reference. -/
def allocArr (h : ArrayHeap) (a : List PokemonListItem) : ArrayHeap × Nat :=
  (⟨h.arrays ++ [a]⟩, h.arrays.length)

/-- `sortItems` at the heap level: `[...items]` allocates a copy of the
input array, `.sort(...)` reorders that copy in place, and the reference to
the copy is returned. -/
def sortItemsRef (lc : String → String → Int) (h : ArrayHeap) (r : Nat)
    (key : SortKey) (dir : SortDir) : ArrayHeap × Nat :=
  let alloc := allocArr h (readArr h r)
  let h2 := writeArr alloc.1 alloc.2
    (stableSort (itemCompare lc key dir) (readArr alloc.1 alloc.2))
  (h2, alloc.2)

/-- The sample list of the source's `runRuntimeTests`. -/
def sampleItems : List PokemonListItem :=
  [ { id := 1, name := "bulbasaur", url := "", image := "", types := ["grass"]
      base_experience := 64, height := 7, weight := 69 }
  , { id := 2, name := "ivysaur", url := "", image := "", types := ["grass"]
      base_experience := 142, height := 10, weight := 130 }
  , { id := 4, name := "charmander", url := "", image := "", types := ["fire"]
      base_experience := 62, height := 6, weight := 85 } ]

/-- An item whose name has an uppercase letter; exercises the case handling
of `filterItems`. -/
def itemUpperA : PokemonListItem :=
  { id := 30, name := "Abra", url := "", image := "", types := []
    base_experience := -1, height := -1, weight := -1 }

/-- Modelled from the spec: "keeps an item ... whose name contains the query
as a case-insensitive substring" — name matching in which BOTH sides are
case-folded.  Stated only to compare the specified behaviour with the
code's `p.name.includes(s)`, which folds only the query. -/
def SpecNameContainsCI (name q : String) : Prop :=
  ∃ pre post, (jsToLower name).data = pre ++ (jsToLower q).data ++ post

/-- A concrete detail response used by witnesses. -/
def witnessDetail : PokemonDetail :=
  { id := 30
    name := "abra"
    sprites := { front_default := some "abra.png" }
    types := [ { slot := 1, type := { name := "psychic", url := "" } } ]
    height := 9
    weight := 195
    base_experience := 62 }

/-- The final pool state of the concrete one-item demonstration run used by
the C3 witness (the single worker claims index 0, its fetch fails, it
retires). -/
def demoFinalPool : PoolState :=
  { cursor := 1
    reqs := 1
    workers := [WStatus.done]
    arr := [itemUpperA] }

/-- The inductive invariant of the worker pool, relative to the initial
light list.  `light` is the array content at spawn time. -/
structure PoolInv (f : Fetch) (light : List PokemonListItem) (s : PoolState) : Prop where
  arr_len : s.arr.length = light.length
  wk_len : s.workers.length = min 4 light.length
  cursor_le : s.cursor ≤ light.length
  reqs_eq : s.reqs = s.cursor
  fetch_lt : ∀ (w idx : Nat), s.workers[w]? = some (WStatus.fetching idx) → idx < s.cursor
  fetch_uniq : ∀ (w w' idx : Nat), s.workers[w]? = some (WStatus.fetching idx) →
    s.workers[w']? = some (WStatus.fetching idx) → w = w'
  done_cursor : ∀ (w : Nat), s.workers[w]? = some WStatus.done → light.length ≤ s.cursor
  arr_hi : ∀ (j : Nat), s.cursor ≤ j → s.arr[j]? = light[j]?
  arr_pending : ∀ (w idx : Nat), s.workers[w]? = some (WStatus.fetching idx) →
    s.arr[idx]? = light[idx]?
  arr_done : ∀ (j : Nat), j < s.cursor → (∀ (w : Nat), s.workers[w]? ≠ some (WStatus.fetching j)) →
    s.arr[j]? = (light[j]?).map (enrichStep f)

/-! ## Correctness of the string primitives -/


theorem beginsWith_iff (sub hay : List Char) :
    beginsWith sub hay = true ↔ ∃ rest, hay = sub ++ rest := by
  induction sub generalizing hay with
  | nil => simp [beginsWith]
  | cons a s ih =>
    cases hay with
    | nil => simp [beginsWith]
    | cons b t =>
      simp only [beginsWith, Bool.and_eq_true, beq_iff_eq, ih,
        List.cons_append, List.cons.injEq]
      constructor
      · rintro ⟨rfl, rest, rfl⟩; exact ⟨rest, rfl, rfl⟩
      · rintro ⟨rest, rfl, rfl⟩; exact ⟨rfl, rest, rfl⟩

theorem listIncludes_iff (sub hay : List Char) :
    listIncludes sub hay = true ↔ ∃ pre post, hay = pre ++ sub ++ post := by
  induction hay with
  | nil =>
    simp only [listIncludes, List.isEmpty_iff]
    constructor
    · rintro rfl; exact ⟨[], [], rfl⟩
    · rintro ⟨pre, post, h⟩
      rcases List.append_eq_nil.mp (List.append_eq_nil.mp h.symm).1 with ⟨-, h2⟩
      exact h2
  | cons c t ih =>
    simp only [listIncludes, Bool.or_eq_true, beginsWith_iff, ih]
    constructor
    · rintro (⟨rest, h⟩ | ⟨pre, post, h⟩)
      · exact ⟨[], rest, by simp [h]⟩
      · exact ⟨c :: pre, post, by simp [h]⟩
    · rintro ⟨pre, post, h⟩
      cases pre with
      | nil => exact Or.inl ⟨post, by simpa using h⟩
      | cons p ps =>
        simp only [List.cons_append, List.cons.injEq] at h
        exact Or.inr ⟨ps, post, h.2⟩

theorem jsToLower_empty_iff (s : String) : jsToLower s = "" ↔ s = "" := by
  constructor
  · intro h
    have h2 : s.data.map Char.toLower = [] := congrArg String.data h
    have h3 : s.data = [] := by simpa using h2
    exact String.ext (by rw [h3])
  · rintro rfl; rfl

/-- Mapping a function that fixes every element of a list is the identity. -/
theorem map_eq_self_of_fix {α : Type} {f : α → α} {l : List α}
    (h : ∀ x ∈ l, f x = x) : l.map f = l := by
  induction l with
  | nil => rfl
  | cons a t ih =>
    simp only [List.map_cons, h a (List.mem_cons_self a t)]
    rw [ih (fun x hx => h x (List.mem_cons_of_mem a hx))]

theorem char_toNat_ofNat (n : Nat) (h : n < 55296) : (Char.ofNat n).toNat = n := by
  unfold Char.ofNat
  rw [dif_pos (Or.inl h)]
  simp [Char.ofNatAux, Char.toNat, UInt32.toNat, BitVec.toNat_ofNatLt]

theorem digitChar_toNat (d : Nat) (h : d < 10) :
    (digitChar d).toNat = 48 + d := by
  exact char_toNat_ofNat _ (by omega)

theorem decimalCharsAux_digits (fuel : Nat) :
    ∀ (n : Nat), ∀ c ∈ decimalCharsAux fuel n, 48 ≤ c.toNat ∧ c.toNat ≤ 57 := by
  induction fuel with
  | zero => intro n c hc; simp [decimalCharsAux] at hc
  | succ fuel ih =>
    intro n c hc
    rw [decimalCharsAux] at hc
    by_cases h : n < 10
    · rw [if_pos h] at hc
      simp only [List.mem_singleton] at hc
      subst hc
      rw [digitChar_toNat _ h]; omega
    · rw [if_neg h] at hc
      rcases List.mem_append.mp hc with h1 | h2
      · exact ih (n / 10) c h1
      · simp only [List.mem_singleton] at h2
        subst h2
        have h10 : n % 10 < 10 := Nat.mod_lt n (by omega)
        rw [digitChar_toNat _ h10]
        omega

theorem decimalChars_digits (n : Nat) :
    ∀ c ∈ decimalChars n, 48 ≤ c.toNat ∧ c.toNat ≤ 57 :=
  decimalCharsAux_digits (n + 1) n

/-- `toLowerCase` fixes decimal digit characters. -/
theorem toLower_digit (c : Char) (h : 48 ≤ c.toNat ∧ c.toNat ≤ 57) :
    c.toLower = c := by
  simp only [Char.toLower]
  rw [if_neg]; omega

/-- If `c.toLower` is a decimal digit then `c` was that digit already:
lowercasing an uppercase letter lands in `a`–`z`, never in `0`–`9`. -/
theorem toLower_eq_digit (c : Char) (h : 48 ≤ c.toLower.toNat ∧ c.toLower.toNat ≤ 57) :
    c.toLower = c := by
  simp only [Char.toLower] at *
  by_cases hc : c.toNat ≥ 65 ∧ c.toNat ≤ 90
  · rw [if_pos hc] at h
    rw [char_toNat_ofNat _ (by omega)] at h
    omega
  · rw [if_neg hc]

/-- The decimal string of `n` is unaffected by `toLowerCase`. -/
theorem jsToLower_decimalStr (n : Nat) : jsToLower (decimalStr n) = decimalStr n := by
  apply String.ext
  show (decimalChars n).map Char.toLower = decimalChars n
  exact map_eq_self_of_fix (fun c hc => toLower_digit c (decimalChars_digits n c hc))

/-- A string whose lowercasing is the decimal string of `n` is itself that
decimal string: the comparison `String(p.id) === s` against the
trimmed-and-lowercased query is equivalent to comparing against the merely
trimmed query. -/
theorem jsToLower_eq_decimalStr_iff (t : String) (n : Nat) :
    jsToLower t = decimalStr n ↔ t = decimalStr n := by
  constructor
  · intro h
    have hdata : t.data.map Char.toLower = decimalChars n := congrArg String.data h
    have hfix : ∀ c ∈ t.data, c.toLower = c := by
      intro c hc
      apply toLower_eq_digit
      apply decimalChars_digits n
      rw [← hdata]
      exact List.mem_map_of_mem Char.toLower hc
    have hmap : t.data.map Char.toLower = t.data := map_eq_self_of_fix hfix
    apply String.ext
    rw [← hmap, hdata]; rfl
  · rintro rfl
    exact jsToLower_decimalStr n

/-! ## Stable-sort theory -/

theorem insertSorted_perm {α : Type} (cmp : α → α → Int) (x : α) (l : List α) :
    (insertSorted cmp x l).Perm (x :: l) := by
  induction l with
  | nil => simp [insertSorted]
  | cons y ys ih =>
    by_cases h : cmp x y ≤ 0
    · simp [insertSorted, h]
    · rw [insertSorted, if_neg h]
      exact (List.Perm.cons y ih).trans (List.Perm.swap x y ys)

theorem stableSort_perm {α : Type} (cmp : α → α → Int) (l : List α) :
    (stableSort cmp l).Perm l := by
  induction l with
  | nil => simp [stableSort]
  | cons x xs ih =>
    exact (insertSorted_perm cmp x (stableSort cmp xs)).trans (List.Perm.cons x ih)

theorem mem_insertSorted {α : Type} {cmp : α → α → Int} {x z : α} {l : List α} :
    z ∈ insertSorted cmp x l ↔ z = x ∨ z ∈ l := by
  rw [(insertSorted_perm cmp x l).mem_iff, List.mem_cons]

theorem insertSorted_pairwise {α : Type} {cmp : α → α → Int}
    (htrans : ∀ a b c, cmp a b ≤ 0 → cmp b c ≤ 0 → cmp a c ≤ 0)
    (htot : ∀ a b, cmp a b ≤ 0 ∨ cmp b a ≤ 0)
    (x : α) {l : List α} (h : List.Pairwise (fun a b => cmp a b ≤ 0) l) :
    List.Pairwise (fun a b => cmp a b ≤ 0) (insertSorted cmp x l) := by
  induction l with
  | nil => simp [insertSorted]
  | cons y ys ih =>
    rcases List.pairwise_cons.mp h with ⟨hy, hys⟩
    by_cases hxy : cmp x y ≤ 0
    · rw [insertSorted, if_pos hxy]
      refine List.pairwise_cons.mpr ⟨?_, h⟩
      intro z hz
      rcases List.mem_cons.mp hz with rfl | hz'
      · exact hxy
      · exact htrans x y z hxy (hy z hz')
    · rw [insertSorted, if_neg hxy]
      refine List.pairwise_cons.mpr ⟨?_, ih hys⟩
      intro z hz
      rcases mem_insertSorted.mp hz with rfl | hz'
      · rcases htot z y with h' | h'
        · exact absurd h' hxy
        · exact h'
      · exact hy z hz'

theorem stableSort_pairwise {α : Type} {cmp : α → α → Int}
    (htrans : ∀ a b c, cmp a b ≤ 0 → cmp b c ≤ 0 → cmp a c ≤ 0)
    (htot : ∀ a b, cmp a b ≤ 0 ∨ cmp b a ≤ 0) (l : List α) :
    List.Pairwise (fun a b => cmp a b ≤ 0) (stableSort cmp l) := by
  induction l with
  | nil => simp [stableSort]
  | cons x xs ih => exact insertSorted_pairwise htrans htot x ih

theorem insertSorted_filter_neg {α : Type} {cmp : α → α → Int} {p : α → Bool}
    {x : α} (hx : p x = false) (l : List α) :
    (insertSorted cmp x l).filter p = l.filter p := by
  induction l with
  | nil => simp [insertSorted, List.filter, hx]
  | cons y ys ih =>
    by_cases h : cmp x y ≤ 0
    · rw [insertSorted, if_pos h, List.filter_cons, hx]
      simp
    · rw [insertSorted, if_neg h, List.filter_cons, List.filter_cons]
      cases hpy : p y <;> simp [ih]

theorem insertSorted_filter_pos {α : Type} {cmp : α → α → Int} {p : α → Bool}
    {x : α} (hx : p x = true) {l : List α}
    (hbefore : ∀ y ∈ l, p y = true → cmp x y ≤ 0) :
    (insertSorted cmp x l).filter p = x :: l.filter p := by
  induction l with
  | nil => simp [insertSorted, List.filter, hx]
  | cons y ys ih =>
    by_cases h : cmp x y ≤ 0
    · rw [insertSorted, if_pos h, List.filter_cons, hx]
      simp
    · rw [insertSorted, if_neg h, List.filter_cons, List.filter_cons]
      cases hpy : p y with
      | true => exact absurd (hbefore y (List.mem_cons_self y ys) hpy) h
      | false =>
        simp only [hpy, Bool.false_eq_true, if_false]
        exact ih (fun z hz hpz => hbefore z (List.mem_cons_of_mem y hz) hpz)

/-- Stability of the sort model: filtering by any predicate that holds only
within one tie class commutes with sorting. -/
theorem stableSort_filter {α : Type} {cmp : α → α → Int} {p : α → Bool}
    (hcls : ∀ a b, p a = true → p b = true → cmp a b ≤ 0) (l : List α) :
    (stableSort cmp l).filter p = l.filter p := by
  induction l with
  | nil => rfl
  | cons x xs ih =>
    rw [stableSort, List.filter_cons]
    cases hpx : p x with
    | true =>
      rw [insertSorted_filter_pos hpx (fun y _ hpy => hcls x y hpx hpy), ih]
      simp
    | false =>
      rw [insertSorted_filter_neg hpx, ih]
      simp

/-! ## Claims about `sortItems` -/

theorem sameKeyB_tie (lc : String → String → Int) (hlc : ∀ s, lc s s = 0)
    (k : SortKey) (d : SortDir) (a x y : PokemonListItem)
    (hx : sameKeyB k a x = true) (hy : sameKeyB k a y = true) :
    itemCompare lc k d x y = 0 := by
  cases k <;>
    simp only [sameKeyB, beq_iff_eq] at hx hy <;>
    cases d <;>
    simp [itemCompare, ← hx, ← hy, hlc]

/-- C6: `sortItems` is stable — for every item list, sort key and direction,
items whose sort-key values are equal keep their input relative order.  The
subsequence of items sharing any one key value (those `sameKeyB k a`) is the
same before and after sorting.  `lc` is the environment's `localeCompare`;
the only property assumed of it is reflexivity (`lc s s = 0`), which every
collation satisfies. -/
theorem sortItems_stable (lc : String → String → Int) (hlc : ∀ s, lc s s = 0)
    (items : List PokemonListItem) (k : SortKey) (d : SortDir)
    (a : PokemonListItem) :
    (sortItems lc items k d).filter (sameKeyB k a) = items.filter (sameKeyB k a) := by
  apply stableSort_filter
  intro x y hx hy
  rw [sameKeyB_tie lc hlc k d a x y hx hy]

/-- Witness for C6 at a concrete input: the two tied-by-name items of a list
with a duplicate name stay in input order. -/
theorem sortItems_stable_witness :
    (sortItems codePointCompare sampleItems .id .asc).filter
        (sameKeyB .id (sampleItems.getD 0 itemUpperA))
      = sampleItems.filter (sameKeyB .id (sampleItems.getD 0 itemUpperA)) :=
  sortItems_stable codePointCompare
    (fun s => by simp [codePointCompare]) sampleItems .id .asc _

/-- C10: the output of `sortItems` is a permutation of its input — same
length, same multiset of items; nothing is added, dropped or modified. -/
theorem sortItems_permutation (lc : String → String → Int)
    (items : List PokemonListItem) (k : SortKey) (d : SortDir) :
    (sortItems lc items k d).Perm items
      ∧ (sortItems lc items k d).length = items.length := by
  refine ⟨stableSort_perm _ items, ?_⟩
  exact (stableSort_perm _ items).length_eq

/-- C9: `sortItems` returns a fresh array and leaves the caller's array
untouched: at the heap level, after `sortItemsRef` the input reference `r`
still holds exactly its old contents, the returned reference is distinct
from `r`, and it holds the sorted contents. -/
theorem sortItems_input_unchanged (lc : String → String → Int) (h : ArrayHeap)
    (r : Nat) (k : SortKey) (d : SortDir) (hr : r < h.arrays.length) :
    readArr (sortItemsRef lc h r k d).1 r = readArr h r
      ∧ (sortItemsRef lc h r k d).2 ≠ r
      ∧ readArr (sortItemsRef lc h r k d).1 (sortItemsRef lc h r k d).2
          = sortItems lc (readArr h r) k d := by
  have hne : h.arrays.length ≠ r := Nat.ne_of_gt hr
  refine ⟨?_, hne, ?_⟩
  · simp only [sortItemsRef, allocArr, writeArr, readArr]
    rw [List.getElem?_set_ne hne]
    rw [List.getElem?_append_left hr]
  · simp only [sortItemsRef, allocArr, writeArr, readArr, sortItems]
    rw [List.getElem?_set_self (by simp)]
    simp only [Option.getD_some]
    congr 1
    rw [List.getElem?_append_right (Nat.le_refl _)]
    simp

/-- Witness for C9 at a concrete heap holding one array. -/
theorem sortItems_input_unchanged_witness :
    readArr (sortItemsRef codePointCompare ⟨[sampleItems]⟩ 0 .name .desc).1 0
      = readArr ⟨[sampleItems]⟩ 0 :=
  (sortItems_input_unchanged codePointCompare ⟨[sampleItems]⟩ 0 .name .desc
    (by simp)).1

/-! ## Gallery type-intersection filter -/

/-- C7: with no selected labels the gallery filter returns all items;
otherwise it keeps exactly the items whose category-label list contains
every selected label (AND semantics).  The uniform filter characterisation
shows the kept items appear in their original order. -/
theorem galleryTypeFilter_spec (items : List PokemonListItem) (selected : List String) :
    galleryTypeFilter items selected
        = items.filter (fun p => decide (∀ t ∈ selected, t ∈ p.types))
      ∧ galleryTypeFilter items [] = items := by
  constructor
  · by_cases h : selected.length = 0
    · have h0 : selected = [] := List.length_eq_zero.mp h
      rw [galleryTypeFilter, if_pos h]
      subst h0
      refine (List.filter_eq_self.mpr ?_).symm
      intro p _
      simp
    · rw [galleryTypeFilter, if_neg h]
      apply List.filter_congr
      intro p _
      by_cases hall : ∀ t ∈ selected, t ∈ p.types
      · rw [decide_eq_true hall, List.all_eq_true]
        intro t ht
        simpa using hall t ht
      · rw [decide_eq_false hall]
        rw [← Bool.not_eq_true, List.all_eq_true]
        intro hcon
        apply hall
        intro t ht
        simpa using hcon t ht
  · rfl

/-! ## Static fallback (page-fetch failure path of `getPokemonPage`) -/

/-- C4: when the initial page fetch throws, `getPokemonPage` returns exactly
the literal 3-item fallback: bulbasaur (id 1), charmander (id 4), squirtle
(id 7) — whatever the detail transport would have answered. -/
theorem getPokemonPage_fallback (f : Fetch) :
    getPokemonPage none f = mockList
      ∧ mockList.map (fun p => (p.id, p.name))
          = [(1, "bulbasaur"), (4, "charmander"), (7, "squirtle")]
      ∧ mockList.length = 3 :=
  ⟨rfl, rfl, rfl⟩

/-! ## Light-list construction (success path of `getPokemonPage`) -/

theorem idCompare_trans (a b c : PokemonListItem) :
    idCompare a b ≤ 0 → idCompare b c ≤ 0 → idCompare a c ≤ 0 := by
  simp only [idCompare]; omega

theorem idCompare_total (a b : PokemonListItem) :
    idCompare a b ≤ 0 ∨ idCompare b a ≤ 0 := by
  simp only [idCompare]; omega

/-- C5: the light list has one entry per page result (a permutation of the
mapped results, same length); each mapped entry's identifier is parsed from
the trailing path segment of its reference URL and its name copied; the
list is ascending by identifier as soon as it is built, before enrichment
runs; every entry starts with empty categories and the `-1` sentinel in the
numeric attributes.  The last conjunct is the spec's concrete example. -/
theorem buildLight_spec (results : List NamedAPIResource) :
    (buildLight results).length = results.length
      ∧ (buildLight results).Perm (results.map lightOf)
      ∧ List.Pairwise (fun a b => a.id ≤ b.id) (buildLight results)
      ∧ (∀ p ∈ buildLight results,
          p.types = [] ∧ p.base_experience = -1 ∧ p.height = -1 ∧ p.weight = -1)
      ∧ (∀ r : NamedAPIResource,
          (lightOf r).id = jsParseTrailingId r.url ∧ (lightOf r).name = r.name)
      ∧ (buildLight
            [ { name := "bulbasaur", url := "https://pokeapi.co/api/v2/pokemon/1/" }
            , { name := "charmander", url := "https://pokeapi.co/api/v2/pokemon/4/" } ]
          ).map (fun p => (p.id, p.name))
        = [(1, "bulbasaur"), (4, "charmander")] := by
  have hperm : (buildLight results).Perm (results.map lightOf) :=
    stableSort_perm idCompare (results.map lightOf)
  refine ⟨?_, hperm, ?_, ?_, ?_, ?_⟩
  · rw [hperm.length_eq, List.length_map]
  · have hp := stableSort_pairwise idCompare_trans idCompare_total (results.map lightOf)
    refine hp.imp ?_
    intro a b h
    simp only [idCompare] at h
    omega
  · intro p hp
    have hp' : p ∈ results.map lightOf := hperm.mem_iff.mp hp
    rcases List.mem_map.mp hp' with ⟨r, -, rfl⟩
    exact ⟨rfl, rfl, rfl, rfl⟩
  · intro r
    exact ⟨rfl, rfl⟩
  · decide

/-- Witness for C5's element-wise conjuncts at the spec's concrete page
response. -/
theorem buildLight_spec_witness :
    (∀ p ∈ buildLight
        [ { name := "bulbasaur", url := "https://pokeapi.co/api/v2/pokemon/1/" }
        , { name := "charmander", url := "https://pokeapi.co/api/v2/pokemon/4/" } ],
      p.types = [] ∧ p.base_experience = -1 ∧ p.height = -1 ∧ p.weight = -1) :=
  (buildLight_spec
    [ { name := "bulbasaur", url := "https://pokeapi.co/api/v2/pokemon/1/" }
    , { name := "charmander", url := "https://pokeapi.co/api/v2/pokemon/4/" } ]).2.2.2.1

/-! ## Detail navigation -/

/-- `jsIndexOf` is linear search: either the element is absent and the
result is `-1`, or the result is the index of the first occurrence. -/
theorem jsIndexOf_spec (l : List Nat) (x : Nat) :
    (jsIndexOf l x = -1 ∧ x ∉ l)
      ∨ (∃ i : Nat, jsIndexOf l x = (i : Int) ∧ l[i]? = some x
          ∧ ∀ j < i, l[j]? ≠ some x) := by
  induction l with
  | nil => exact Or.inl ⟨rfl, List.not_mem_nil x⟩
  | cons a t ih =>
    by_cases hax : a = x
    · refine Or.inr ⟨0, ?_, by simp [hax], by omega⟩
      simp [jsIndexOf, hax]
    · rcases ih with ⟨h1, h2⟩ | ⟨i, hi, hget, hmin⟩
      · refine Or.inl ⟨?_, ?_⟩
        · rw [jsIndexOf, if_neg hax]
          simp only [h1]
          rfl
        · intro hmem
          rcases List.mem_cons.mp hmem with rfl | hmem'
          · exact hax rfl
          · exact h2 hmem'
      · refine Or.inr ⟨i + 1, ?_, by simpa using hget, ?_⟩
        · rw [jsIndexOf, if_neg hax]
          simp only [hi]
          rw [if_neg (by omega)]
          omega
        · intro j hj
          cases j with
          | zero => simpa using hax
          | succ j' =>
            intro hc
            exact hmin j' (by omega) (by simpa using hc)

/-- C8: `DetailView` finds the current identifier's index in the Shared
Result List's identifier order by linear search; "previous" is the
identifier immediately before it (`none` at index 0), "next" the one
immediately after (`none` at the last index and when the identifier is
absent — in which case "previous" is `none` too).  The concrete conjuncts
instantiate the spec's example with identifier order `[1, 4, 7]` (the
static fallback items). -/
theorem prevNext_spec (order : List Nat) (pid : Nat) :
    (jsIndexOf order pid = -1 → prevNextIds order pid = (none, none))
      ∧ (∀ i : Nat, jsIndexOf order pid = (i : Int) →
          (0 < i → (prevNextIds order pid).1 = order[i - 1]?)
          ∧ (i = 0 → (prevNextIds order pid).1 = none)
          ∧ (i + 1 < order.length → (prevNextIds order pid).2 = order[i + 1]?)
          ∧ (i + 1 = order.length → (prevNextIds order pid).2 = none))
      ∧ (pid ∉ order → prevNextIds order pid = (none, none))
      ∧ detailNav mockList 4 = (some 1, some 7)
      ∧ (detailNav mockList 1).1 = none ∧ (detailNav mockList 1).2 = some 4
      ∧ (detailNav mockList 7).1 = some 4 ∧ (detailNav mockList 7).2 = none
      ∧ detailNav mockList 9 = (none, none) := by
  have habs : jsIndexOf order pid = -1 → prevNextIds order pid = (none, none) := by
    intro h
    simp only [prevNextIds, h]
    norm_num
  refine ⟨habs, ?_, ?_, by decide, by decide, by decide, by decide, by decide, by decide⟩
  · intro i hi
    refine ⟨?_, ?_, ?_, ?_⟩
    · intro h0
      simp only [prevNextIds, hi]
      rw [if_pos (by exact_mod_cast h0)]
      simp
    · rintro rfl
      simp only [prevNextIds, hi]
      norm_num
    · intro hlt
      simp only [prevNextIds, hi]
      rw [if_pos (And.intro (Int.natCast_nonneg i) (by omega))]
      simp
    · intro hlast
      simp only [prevNextIds, hi]
      rw [if_neg (by omega)]
  · intro hmem
    rcases jsIndexOf_spec order pid with ⟨h1, -⟩ | ⟨i, -, hget, -⟩
    · exact habs h1
    · exact absurd (List.getElem?_mem hget) hmem

/-- Witness for C8's hypothesis-guarded conjuncts at the concrete order
`[1, 4, 7]`, current identifier 4 (index 1). -/
theorem prevNext_spec_witness :
    (prevNextIds [1, 4, 7] 4).1 = [1, 4, 7][0]?
      ∧ (prevNextIds [1, 4, 7] 4).2 = [1, 4, 7][2]?
      ∧ prevNextIds [9, 9, 9] 3 = (none, none) := by
  have h := (prevNext_spec [1, 4, 7] 4).2.1 1 (by decide)
  refine ⟨h.1 (by decide), h.2.2.1 (by decide), ?_⟩
  exact (prevNext_spec [9, 9, 9] 3).2.2.1 (by decide)

/-! ## Text filter (`filterItems`) -/

theorem jsIncludes_iff (hay sub : String) :
    jsIncludes hay sub = true ↔ ∃ pre post, hay.data = pre ++ sub.data ++ post :=
  listIncludes_iff sub.data hay.data

/-- C1 counterexample: the claim's case-insensitive name matching fails on
a name with an uppercase letter.  `filterItems` lowercases only the query:
searching the literal name of the item drops it, although the name
trivially contains the query case-insensitively (and the identifier clause
does not apply). -/
theorem filterItems_counterexample :
    filterItems [itemUpperA] "Abra" = []
      ∧ jsTrim "Abra" ≠ ""
      ∧ SpecNameContainsCI itemUpperA.name (jsTrim "Abra")
      ∧ itemUpperA ∈ [itemUpperA]
      ∧ decimalStr itemUpperA.id ≠ jsTrim "Abra" :=
  ⟨by decide, by decide, ⟨[], [], by decide⟩, by decide, by decide⟩

/-- C1 amended: a query that trims to empty returns the items unchanged
(trimming to empty and trimming-plus-lowercasing to empty coincide);
a query that is non-empty after trimming and lowercasing keeps, in order,
exactly the items whose name contains the trimmed-and-lowercased query as a
case-SENSITIVE substring — the one amendment the counterexample forces —
or whose identifier's decimal string representation equals the trimmed
query. -/
theorem filterItems_spec (items : List PokemonListItem) (q : String) :
    (jsTrim q = "" → filterItems items q = items)
      ∧ (jsTrim q = "" ↔ jsToLower (jsTrim q) = "")
      ∧ (jsToLower (jsTrim q) ≠ "" →
          filterItems items q
              = items.filter (fun p =>
                  listIncludes (jsToLower (jsTrim q)).data p.name.data
                    || decide (decimalStr p.id = jsTrim q))
            ∧ ∀ p, p ∈ filterItems items q ↔
                p ∈ items
                  ∧ ((∃ pre post,
                        p.name.data = pre ++ (jsToLower (jsTrim q)).data ++ post)
                      ∨ decimalStr p.id = jsTrim q)) := by
  refine ⟨?_, ⟨fun h => by rw [h]; rfl, (jsToLower_empty_iff _).mp⟩, ?_⟩
  · intro h
    have hs : jsToLower (jsTrim q) = "" := by rw [h]; rfl
    rw [filterItems]
    simp only [hs, if_pos rfl, if_true]
  · intro hne
    have hfe : filterItems items q
        = items.filter (fun p =>
            listIncludes (jsToLower (jsTrim q)).data p.name.data
              || decide (decimalStr p.id = jsTrim q)) := by
      rw [filterItems]
      simp only [if_neg hne]
      apply List.filter_congr
      intro p _
      have h2 : (decimalStr p.id == jsToLower (jsTrim q))
          = decide (decimalStr p.id = jsTrim q) := by
        by_cases heq : decimalStr p.id = jsTrim q
        · have h3 : jsToLower (jsTrim q) = decimalStr p.id := by
            rw [jsToLower_eq_decimalStr_iff]; exact heq.symm
          simp [heq, h3]
        · have h3 : decimalStr p.id ≠ jsToLower (jsTrim q) := by
            intro hc
            exact heq ((jsToLower_eq_decimalStr_iff _ _).mp hc.symm).symm
          simp [heq, h3]
      rw [h2]
      rfl
    refine ⟨hfe, ?_⟩
    intro p
    rw [hfe, List.mem_filter]
    simp only [Bool.or_eq_true, listIncludes_iff, decide_eq_true_eq]

/-- Witness for C1: the empty-query branch on the runtime-test sample, and
the non-empty-query characterisation for the query `"  SAUR "` (matching by
name) — both hypotheses discharged at concrete inputs. -/
theorem filterItems_spec_witness :
    filterItems sampleItems "" = sampleItems
      ∧ (∀ p, p ∈ filterItems sampleItems "  SAUR " ↔
          p ∈ sampleItems
            ∧ ((∃ pre post,
                  p.name.data = pre ++ (jsToLower (jsTrim "  SAUR ")).data ++ post)
                ∨ decimalStr p.id = jsTrim "  SAUR ")) :=
  ⟨(filterItems_spec sampleItems "").1 (by decide),
   ((filterItems_spec sampleItems "  SAUR ").2.2 (by decide)).2⟩

/-! ## Enrichment: per-entry invariants -/

/-- C2: enriching an entry never changes its `id` or `name`; under the
catalog's data contract (detail responses carry non-negative attribute
values) each of `base_experience` / `height` / `weight` is either left
unchanged (fetch failure) or set to a non-negative value, and a field that
has left the `-1` sentinel never returns to it. -/
theorem enrichStep_invariants (f : Fetch) (p : PokemonListItem)
    (hd : ∀ i d, f i = some d →
      0 ≤ d.base_experience ∧ 0 ≤ d.height ∧ 0 ≤ d.weight) :
    (enrichStep f p).id = p.id
      ∧ (enrichStep f p).name = p.name
      ∧ ((enrichStep f p).base_experience = p.base_experience
          ∨ 0 ≤ (enrichStep f p).base_experience)
      ∧ ((enrichStep f p).height = p.height ∨ 0 ≤ (enrichStep f p).height)
      ∧ ((enrichStep f p).weight = p.weight ∨ 0 ≤ (enrichStep f p).weight)
      ∧ (p.base_experience ≠ -1 → (enrichStep f p).base_experience ≠ -1)
      ∧ (p.height ≠ -1 → (enrichStep f p).height ≠ -1)
      ∧ (p.weight ≠ -1 → (enrichStep f p).weight ≠ -1) := by
  cases hf : f p.id with
  | none =>
    simp [enrichStep, hf]
  | some d =>
    obtain ⟨h1, h2, h3⟩ := hd p.id d hf
    have hb : (enrichStep f p).base_experience = d.base_experience := by
      simp [enrichStep, hf, applyDetail]
    have hh : (enrichStep f p).height = d.height := by
      simp [enrichStep, hf, applyDetail]
    have hw2 : (enrichStep f p).weight = d.weight := by
      simp [enrichStep, hf, applyDetail]
    have hid : (enrichStep f p).id = p.id := by
      simp [enrichStep, hf, applyDetail]
    have hnm : (enrichStep f p).name = p.name := by
      simp [enrichStep, hf, applyDetail]
    refine ⟨hid, hnm, Or.inr (by omega), Or.inr (by omega), Or.inr (by omega),
      ?_, ?_, ?_⟩ <;> intro _ <;> omega

/-- Witness for C2 at a concrete entry and a concrete successful fetch. -/
theorem enrichStep_invariants_witness :
    (enrichStep (fun _ => some witnessDetail) itemUpperA).id = itemUpperA.id
      ∧ (enrichStep (fun _ => some witnessDetail) itemUpperA).name = itemUpperA.name
      ∧ 0 ≤ (enrichStep (fun _ => some witnessDetail) itemUpperA).base_experience :=
  have h := enrichStep_invariants (fun _ => some witnessDetail) itemUpperA
    (by intro i d hd; injection hd with h'; subst h'; decide)
  ⟨h.1, h.2.1, by decide⟩

/-! ## The worker pool: invariant and guarantees -/

theorem poolInv_init (f : Fetch) (light : List PokemonListItem) :
    PoolInv f light (initPool light) := by
  have hrep : ∀ (w : Nat) (v : WStatus),
      (initPool light).workers[w]? = some v → v = WStatus.idle := by
    intro w v hv
    have hmem : v ∈ (initPool light).workers := List.getElem?_mem hv
    simpa using List.eq_of_mem_replicate hmem
  constructor
  · rfl
  · simp [initPool]
  · exact Nat.zero_le _
  · rfl
  · intro w idx h
    exact absurd (hrep w _ h) (by simp)
  · intro w w' idx h h'
    exact absurd (hrep w _ h) (by simp)
  · intro w h
    exact absurd (hrep w _ h) (by simp)
  · intro j _
    rfl
  · intro w idx h
    exact absurd (hrep w _ h) (by simp)
  · intro j hj _
    exact absurd hj (by simp [initPool])

theorem poolInv_claim {f : Fetch} {light : List PokemonListItem} {s : PoolState}
    (hinv : PoolInv f light s) (w : Nat)
    (hw : s.workers[w]? = some WStatus.idle) (hc : s.cursor < s.arr.length) :
    PoolInv f light
      { cursor := s.cursor + 1
        reqs := s.reqs + 1
        workers := s.workers.set w (WStatus.fetching s.cursor)
        arr := s.arr } := by
  have hwlt : w < s.workers.length := by
    rcases List.getElem?_eq_some.mp hw with ⟨h, -⟩
    exact h
  have hcl : s.cursor < light.length := by rw [← hinv.arr_len]; exact hc
  constructor
  · exact hinv.arr_len
  · show (s.workers.set w (WStatus.fetching s.cursor)).length = min 4 light.length
    simpa using hinv.wk_len
  · show s.cursor + 1 ≤ light.length
    omega
  · show s.reqs + 1 = s.cursor + 1
    rw [hinv.reqs_eq]
  · -- fetch_lt
    intro w' idx h'
    show idx < s.cursor + 1
    by_cases hww : w = w'
    · subst hww
      rw [List.getElem?_set_self hwlt] at h'
      injection h' with h''
      cases h''
      omega
    · rw [List.getElem?_set_ne hww] at h'
      exact Nat.lt_succ_of_lt (hinv.fetch_lt w' idx h')
  · -- fetch_uniq
    intro w1 w2 idx h1 h2
    by_cases h1w : w = w1 <;> by_cases h2w : w = w2
    · omega
    · subst h1w
      rw [List.getElem?_set_self hwlt] at h1
      rw [List.getElem?_set_ne h2w] at h2
      injection h1 with h1'
      cases h1'
      exact absurd (hinv.fetch_lt w2 _ h2) (by omega)
    · subst h2w
      rw [List.getElem?_set_self hwlt] at h2
      rw [List.getElem?_set_ne h1w] at h1
      injection h2 with h2'
      cases h2'
      exact absurd (hinv.fetch_lt w1 _ h1) (by omega)
    · rw [List.getElem?_set_ne h1w] at h1
      rw [List.getElem?_set_ne h2w] at h2
      exact hinv.fetch_uniq w1 w2 idx h1 h2
  · -- done_cursor
    intro w' h'
    show light.length ≤ s.cursor + 1
    by_cases hww : w = w'
    · subst hww
      rw [List.getElem?_set_self hwlt] at h'
      exact absurd h' (by simp)
    · rw [List.getElem?_set_ne hww] at h'
      exact Nat.le_succ_of_le (hinv.done_cursor w' h')
  · -- arr_hi
    intro j hj
    have hj' : s.cursor + 1 ≤ j := hj
    exact hinv.arr_hi j (by omega)
  · -- arr_pending
    intro w' idx h'
    by_cases hww : w = w'
    · subst hww
      rw [List.getElem?_set_self hwlt] at h'
      injection h' with h''
      cases h''
      exact hinv.arr_hi s.cursor (Nat.le_refl _)
    · rw [List.getElem?_set_ne hww] at h'
      exact hinv.arr_pending w' idx h'
  · -- arr_done
    intro j hj hnof
    have hj' : j < s.cursor + 1 := hj
    by_cases hjc : j = s.cursor
    · subst hjc
      exfalso
      exact hnof w (List.getElem?_set_self hwlt)
    · refine hinv.arr_done j (by omega) ?_
      intro w' hcon
      by_cases hww : w = w'
      · subst hww
        rw [hw] at hcon
        exact absurd hcon (by simp)
      · exact hnof w' (by rw [List.getElem?_set_ne hww]; exact hcon)

theorem poolInv_retire {f : Fetch} {light : List PokemonListItem} {s : PoolState}
    (hinv : PoolInv f light s) (w : Nat)
    (hw : s.workers[w]? = some WStatus.idle) (hc : s.arr.length ≤ s.cursor) :
    PoolInv f light { s with workers := s.workers.set w WStatus.done } := by
  have hwlt : w < s.workers.length := by
    rcases List.getElem?_eq_some.mp hw with ⟨h, -⟩
    exact h
  have hold : ∀ (w' : Nat) (v : WStatus), w ≠ w' →
      (s.workers.set w WStatus.done)[w']? = some v → s.workers[w']? = some v := by
    intro w' v hne h'
    rwa [List.getElem?_set_ne hne] at h'
  constructor
  · exact hinv.arr_len
  · show (s.workers.set w WStatus.done).length = min 4 light.length
    simpa using hinv.wk_len
  · exact hinv.cursor_le
  · exact hinv.reqs_eq
  · intro w' idx h'
    by_cases hww : w = w'
    · subst hww
      rw [List.getElem?_set_self hwlt] at h'
      exact absurd h' (by simp)
    · exact hinv.fetch_lt w' idx (hold w' _ hww h')
  · intro w1 w2 idx h1 h2
    by_cases h1w : w = w1
    · subst h1w
      rw [List.getElem?_set_self hwlt] at h1
      exact absurd h1 (by simp)
    · by_cases h2w : w = w2
      · subst h2w
        rw [List.getElem?_set_self hwlt] at h2
        exact absurd h2 (by simp)
      · exact hinv.fetch_uniq w1 w2 idx (hold w1 _ h1w h1) (hold w2 _ h2w h2)
  · intro w' h'
    show light.length ≤ s.cursor
    by_cases hww : w = w'
    · rw [hinv.arr_len] at hc
      exact hc
    · exact hinv.done_cursor w' (hold w' _ hww h')
  · exact hinv.arr_hi
  · intro w' idx h'
    by_cases hww : w = w'
    · subst hww
      rw [List.getElem?_set_self hwlt] at h'
      exact absurd h' (by simp)
    · exact hinv.arr_pending w' idx (hold w' _ hww h')
  · intro j hj hnof
    refine hinv.arr_done j hj ?_
    intro w' hcon
    by_cases hww : w = w'
    · subst hww
      rw [hw] at hcon
      exact absurd hcon (by simp)
    · exact hnof w' (by rw [List.getElem?_set_ne hww]; exact hcon)

theorem poolInv_complete {f : Fetch} {light : List PokemonListItem} {s : PoolState}
    (hinv : PoolInv f light s) (w idx : Nat) (p : PokemonListItem)
    (hw : s.workers[w]? = some (WStatus.fetching idx)) (hp : s.arr[idx]? = some p) :
    PoolInv f light
      { s with
        workers := s.workers.set w WStatus.idle
        arr := s.arr.set idx (enrichStep f p) } := by
  have hwlt : w < s.workers.length := by
    rcases List.getElem?_eq_some.mp hw with ⟨h, -⟩
    exact h
  have hialt : idx < s.arr.length := by
    rcases List.getElem?_eq_some.mp hp with ⟨h, -⟩
    exact h
  have hic : idx < s.cursor := hinv.fetch_lt w idx hw
  have hold : ∀ (w' : Nat) (v : WStatus), w ≠ w' →
      (s.workers.set w WStatus.idle)[w']? = some v → s.workers[w']? = some v := by
    intro w' v hne h'
    rwa [List.getElem?_set_ne hne] at h'
  constructor
  · show (s.arr.set idx (enrichStep f p)).length = light.length
    simpa using hinv.arr_len
  · show (s.workers.set w WStatus.idle).length = min 4 light.length
    simpa using hinv.wk_len
  · exact hinv.cursor_le
  · exact hinv.reqs_eq
  · intro w' idx' h'
    by_cases hww : w = w'
    · subst hww
      rw [List.getElem?_set_self hwlt] at h'
      exact absurd h' (by simp)
    · exact hinv.fetch_lt w' idx' (hold w' _ hww h')
  · intro w1 w2 idx' h1 h2
    by_cases h1w : w = w1
    · subst h1w
      rw [List.getElem?_set_self hwlt] at h1
      exact absurd h1 (by simp)
    · by_cases h2w : w = w2
      · subst h2w
        rw [List.getElem?_set_self hwlt] at h2
        exact absurd h2 (by simp)
      · exact hinv.fetch_uniq w1 w2 idx' (hold w1 _ h1w h1) (hold w2 _ h2w h2)
  · intro w' h'
    by_cases hww : w = w'
    · subst hww
      rw [List.getElem?_set_self hwlt] at h'
      exact absurd h' (by simp)
    · exact hinv.done_cursor w' (hold w' _ hww h')
  · intro j hj
    have hj' : s.cursor ≤ j := hj
    have hij : idx ≠ j := by omega
    show (s.arr.set idx (enrichStep f p))[j]? = light[j]?
    rw [List.getElem?_set_ne hij]
    exact hinv.arr_hi j hj'
  · intro w' idx' h'
    by_cases hww : w = w'
    · subst hww
      rw [List.getElem?_set_self hwlt] at h'
      exact absurd h' (by simp)
    · have hwold : s.workers[w']? = some (WStatus.fetching idx') := hold w' _ hww h'
      have hii : idx ≠ idx' := by
        intro hcon
        subst hcon
        exact hww (hinv.fetch_uniq w w' idx hw hwold)
      show (s.arr.set idx (enrichStep f p))[idx']? = light[idx']?
      rw [List.getElem?_set_ne hii]
      exact hinv.arr_pending w' idx' hwold
  · intro j hj hnof
    by_cases hij : idx = j
    · subst hij
      show (s.arr.set idx (enrichStep f p))[idx]? = (light[idx]?).map (enrichStep f)
      rw [List.getElem?_set_self hialt]
      have hlp : light[idx]? = some p := by
        rw [← hinv.arr_pending w idx hw]
        exact hp
      rw [hlp]
      rfl
    · show (s.arr.set idx (enrichStep f p))[j]? = (light[j]?).map (enrichStep f)
      rw [List.getElem?_set_ne hij]
      refine hinv.arr_done j hj ?_
      intro w' hcon
      by_cases hww : w = w'
      · subst hww
        rw [hw] at hcon
        injection hcon with h1
        injection h1 with h2
        exact hij h2
      · exact hnof w' (by rw [List.getElem?_set_ne hww]; exact hcon)

theorem poolInv_step {f : Fetch} {light : List PokemonListItem} {s s' : PoolState}
    (hinv : PoolInv f light s) (hstep : PoolStep f s s') : PoolInv f light s' := by
  cases hstep with
  | claim w hw hc => exact poolInv_claim hinv w hw hc
  | retire w hw hc => exact poolInv_retire hinv w hw hc
  | complete w idx p hw hp => exact poolInv_complete hinv w idx p hw hp

theorem poolInv_reachable {f : Fetch} {light : List PokemonListItem} {s : PoolState}
    (h : PoolReachable f light s) : PoolInv f light s := by
  induction h with
  | refl => exact poolInv_init f light
  | tail _ hstep ih => exact poolInv_step ih hstep


theorem inFlight_le_of_inv {f : Fetch} {light : List PokemonListItem}
    {s : PoolState} (hinv : PoolInv f light s) : inFlight s ≤ 4 := by
  have h1 : inFlight s ≤ s.workers.length := List.countP_le_length _
  rw [hinv.wk_len] at h1
  exact h1.trans (Nat.min_le_left _ _)

/-- In a final pool state the cursor has drained the whole list, exactly one
request was issued per entry, and the array is the pointwise enrichment of
the initial light list. -/
theorem pool_final_characterization {f : Fetch} {light : List PokemonListItem}
    {s : PoolState} (hinv : PoolInv f light s) (hfin : IsFinal s) :
    s.reqs = light.length ∧ s.arr = light.map (enrichStep f) := by
  have hnof : ∀ (w idx : Nat), s.workers[w]? ≠ some (WStatus.fetching idx) := by
    intro w idx hcon
    have hmem : WStatus.fetching idx ∈ s.workers := List.getElem?_mem hcon
    exact absurd (hfin _ hmem) (by simp)
  have hcur : s.cursor = light.length := by
    rcases Nat.eq_zero_or_pos light.length with h0 | hpos
    · have := hinv.cursor_le
      omega
    · have hwlen : 0 < s.workers.length := by
        rw [hinv.wk_len]
        omega
      have hv : s.workers[0]? = some s.workers[0] := List.getElem?_eq_getElem hwlen
      have hvdone : s.workers[0] = WStatus.done :=
        hfin _ (List.getElem_mem hwlen)
      have hle : light.length ≤ s.cursor := hinv.done_cursor 0 (by rw [hv, hvdone])
      have := hinv.cursor_le
      omega
  refine ⟨by rw [hinv.reqs_eq, hcur], ?_⟩
  apply List.ext_getElem?
  intro i
  rw [List.getElem?_map]
  by_cases hi : i < light.length
  · exact hinv.arr_done i (by omega) (fun w => hnof w i)
  · have h1 : s.arr[i]? = none := by
      apply List.getElem?_eq_none
      rw [hinv.arr_len]
      omega
    have h2 : light[i]? = none := List.getElem?_eq_none (by omega)
    rw [h1, h2]
    rfl

/-- C3: the enrichment phase of `getPokemonPage` spawns `min(4, n)` workers
over one shared cursor; every state any schedule can reach keeps at most 4
detail requests in flight; every complete run issues exactly `n` requests
(one per entry, no retries) and leaves the array pointwise enriched; and a
change of the transport's behaviour at one identifier (e.g. that entry's
request failing) never changes any other entry's outcome, under any two
complete schedules. -/
theorem enrichment_pool_spec (f f' : Fetch) (light : List PokemonListItem) (k : Nat) :
    (initPool light).workers.length = min 4 light.length
      ∧ (∀ s, PoolReachable f light s → inFlight s ≤ 4)
      ∧ (∀ s, PoolReachable f light s → IsFinal s →
          s.reqs = light.length ∧ s.arr = light.map (enrichStep f))
      ∧ ((∀ i, i ≠ k → f i = f' i) →
          ∀ s s', PoolReachable f light s → IsFinal s →
            PoolReachable f' light s' → IsFinal s' →
            ∀ (j : Nat) (p : PokemonListItem), light[j]? = some p → p.id ≠ k →
              s.arr[j]? = s'.arr[j]?) := by
  refine ⟨by simp [initPool], ?_, ?_, ?_⟩
  · intro s hs
    exact inFlight_le_of_inv (poolInv_reachable hs)
  · intro s hs hfin
    exact pool_final_characterization (poolInv_reachable hs) hfin
  · intro hagree s s' hs hfin hs' hfin'
    intro j p hj hpk
    have h1 := (pool_final_characterization (poolInv_reachable hs) hfin).2
    have h2 := (pool_final_characterization (poolInv_reachable hs') hfin').2
    rw [h1, h2, List.getElem?_map, List.getElem?_map, hj]
    show some (enrichStep f p) = some (enrichStep f' p)
    have : f p.id = f' p.id := hagree p.id hpk
    rw [enrichStep, enrichStep, this]

/-- Witness for C3: a complete one-item run (claim, failed fetch, retire)
reaches the final state `demoFinalPool`; the theorem applied there yields
the in-flight bound, the request count 1 and the untouched entry. -/
theorem enrichment_pool_spec_witness :
    inFlight demoFinalPool ≤ 4
      ∧ demoFinalPool.reqs = 1
      ∧ demoFinalPool.arr
          = [itemUpperA].map (enrichStep (fun _ => none)) := by
  have hstep1 : PoolStep (fun _ => none) (initPool [itemUpperA])
      { cursor := 1, reqs := 1, workers := [WStatus.fetching 0], arr := [itemUpperA] } :=
    PoolStep.claim (initPool [itemUpperA]) 0 rfl (by decide)
  have hstep2 : PoolStep (fun _ => none)
      { cursor := 1, reqs := 1, workers := [WStatus.fetching 0], arr := [itemUpperA] }
      { cursor := 1, reqs := 1, workers := [WStatus.idle], arr := [itemUpperA] } :=
    PoolStep.complete
      { cursor := 1, reqs := 1, workers := [WStatus.fetching 0], arr := [itemUpperA] }
      0 0 itemUpperA rfl rfl
  have hstep3 : PoolStep (fun _ => none)
      { cursor := 1, reqs := 1, workers := [WStatus.idle], arr := [itemUpperA] }
      demoFinalPool :=
    PoolStep.retire
      { cursor := 1, reqs := 1, workers := [WStatus.idle], arr := [itemUpperA] }
      0 rfl (by decide)
  have hreach : PoolReachable (fun _ => none) [itemUpperA] demoFinalPool :=
    Relation.ReflTransGen.tail
      (Relation.ReflTransGen.tail
        (Relation.ReflTransGen.tail Relation.ReflTransGen.refl hstep1) hstep2) hstep3
  obtain ⟨-, h2, h3, -⟩ :=
    enrichment_pool_spec (fun _ => none) (fun _ => none) [itemUpperA] 0
  have hfin : IsFinal demoFinalPool := by decide
  exact ⟨h2 demoFinalPool hreach, (h3 demoFinalPool hreach hfin).1,
    (h3 demoFinalPool hreach hfin).2⟩

end Pokedex
